import Mathlib

/-!
Verification of the event storage and time-bucketed aggregation engine of
`src/message.py` (class `MetricsCollector`): a shallow embedding of the
store (an append-only list of rows of the `metrics` table) and of the
operations `increment`, `get_names` and `get_data`, together with proofs
of the specified properties.

Modelling decisions:
* A row of the sqlite table `metrics` is an `Event` (the auto-increment
  `id` column is represented by the position in the list).
* `int(time.time())` is passed explicitly as the parameter `now`.
* Python `//` on `int` is floor division; the Lean `/` on `Int` is Euclidean
  division, which coincides with floor division for the positive literal
  divisor `300` used by the code.
* The Python dict `buckets` is modelled as a total function `Int → Int`
  with default value `0`; this is observationally equivalent because the
  code reads it only through `buckets[current] if current in buckets else 0`.
-/

/-- A stored row of the `metrics` table: `(name, timestamp, count)`. -/
structure Event where
  name : String
  timestamp : Int
  count : Int
deriving DecidableEq, Repr

/-- `MetricsCollector.increment` (lines 36-45): appends one row with the
current timestamp and the given count; no validation is performed. -/
def increment (db : List Event) (name : String) (now : Int) (count : Int) : List Event :=
  db ++ [{ name := name, timestamp := now, count := count }]

/-- `MetricsCollector.get_names` (lines 47-55):
`SELECT DISTINCT name FROM metrics ORDER BY name` — the distinct names,
lexicographically sorted. -/
def get_names (db : List Event) : List String :=
  ((db.map Event.name).toFinset).sort (fun a b => a ≤ b)

/-- `(timestamp // 300) * 300` (line 69): flooring a time to its
300-second bucket boundary. -/
def align (t : Int) : Int :=
  t / 300 * 300

/-- The rows fetched by
`SELECT timestamp, count FROM metrics WHERE name = ? AND timestamp >= ?`
(lines 62-64), in insertion order. -/
def scanRows (db : List Event) (name : String) (since : Int) : List (Int × Int) :=
  (db.filter (fun e => decide (e.name = name ∧ since ≤ e.timestamp))).map
    (fun e => (e.timestamp, e.count))

/-- The dict-building loop of `get_data` (lines 67-73): fold the rows into
a map from aligned timestamp to summed count (`buckets[bucket] += count`,
starting from the default `0`). -/
def buildBuckets (rows : List (Int × Int)) : Int → Int :=
  rows.foldl
    (fun buckets tc => fun k => if k = align tc.1 then buckets k + tc.2 else buckets k)
    (fun _ => 0)

/-- The emission loop of `get_data` (lines 76-82):
`current = (start_time // 300) * 300; while current <= end_time: ...;
current = current + 300` — the list of visited bucket starts. -/
def bucketStarts (current stop : Int) : List Int :=
  if current ≤ stop then current :: bucketStarts (current + 300) stop else []
termination_by (stop + 300 - current).toNat
decreasing_by
  simp_wf
  omega

/-- `MetricsCollector.get_data` (lines 57-84): scan the trailing 24 hours
of rows for `name`, fold them into buckets, and emit one
`(timestamp, count)` entry per 300-second slot from the aligned window
start to `end_time`, gap-filling missing slots with count `0`. -/
def get_data (db : List Event) (name : String) (now : Int) : List (Int × Int) :=
  let end_time := now
  let start_time := end_time - 86400
  let rows := scanRows db name start_time
  let buckets := buildBuckets rows
  (bucketStarts (align start_time) end_time).map (fun b => (b, buckets b))

/-- The stored events for `name` that lie in the trailing 24-hour window
`[now - 86400, now]` and fall in the bucket starting at `b`. -/
def bucketEvents (db : List Event) (name : String) (now b : Int) : List Event :=
  db.filter (fun e =>
    decide (e.name = name ∧ now - 86400 ≤ e.timestamp ∧ e.timestamp ≤ now ∧
      align e.timestamp = b))

/-- The stored events for `name` in the trailing 24-hour window. -/
def windowEvents (db : List Event) (name : String) (now : Int) : List Event :=
  db.filter (fun e =>
    decide (e.name = name ∧ now - 86400 ≤ e.timestamp ∧ e.timestamp ≤ now))

/-- Observable resource state during one `increment` call: the stored rows,
whether `self.lock` is held, and whether the sqlite connection opened by
this call is still open. -/
structure RunState where
  db : List Event
  lockHeld : Bool
  connOpen : Bool
deriving DecidableEq, Repr

/-- Control flow of `MetricsCollector.increment` (lines 36-45) with its
failure path made explicit: `lock.acquire()`, `sqlite3.connect`, then the
INSERT/commit — modelled by the flag `writeOk` — then `conn.close()` and
`lock.release()`.  The method has no `try`/`finally`, so when the write
raises (`writeOk = false`) the remaining statements are skipped and the
exception propagates; the returned `Option String` is the propagated
`StorageError`, if any. -/
def increment_run (db : List Event) (name : String) (now count : Int) (writeOk : Bool) :
    RunState × Option String :=
  let acquired : RunState := { db := db, lockHeld := true, connOpen := true }
  if writeOk then
    ({ db := acquired.db ++ [{ name := name, timestamp := now, count := count }],
       lockHeld := false, connOpen := false }, none)
  else
    (acquired, some "StorageError")

/-- Sequential execution of a list of `increment` calls
`(name, timestamp, count)`.  Because every durable write in the source is
performed entirely inside `self.lock`, any concurrent execution of the
calls is equivalent to the sequential execution of some arrival order, and
all orders are covered by quantifying over `ops`. -/
def runAll (db : List Event) (ops : List (String × Int × Int)) : List Event :=
  ops.foldl (fun d op => increment d op.1 op.2.1 op.2.2) db

lemma align_le (t : Int) : align t ≤ t := by
  unfold align; omega

lemma lt_align_add (t : Int) : t < align t + 300 := by
  unfold align; omega

lemma range_map_shift (a : Int) (m : ℕ) :
    (List.range (m + 1)).map (fun i : ℕ => a + 300 * (i : Int)) =
      a :: (List.range m).map (fun i : ℕ => (a + 300) + 300 * (i : Int)) := by
  rw [List.range_succ_eq_map]
  simp only [List.map_cons, List.map_map, Nat.cast_zero, mul_zero, add_zero]
  congr 1
  apply List.map_congr_left
  intro i _
  simp only [Function.comp_apply]
  push_cast
  ring

lemma bucketStarts_closed : ∀ (n : ℕ) (current stop : Int), (stop - current).toNat = n →
    current ≤ stop →
    bucketStarts current stop =
      (List.range (((stop - current) / 300).toNat + 1)).map
        (fun i : ℕ => current + 300 * (i : Int)) := by
  intro n
  induction n using Nat.strong_induction_on with
  | _ n ih =>
    intro current stop hn h
    rw [bucketStarts, if_pos h]
    by_cases h2 : current + 300 ≤ stop
    · have hq : ((stop - current) / 300).toNat
          = (((stop - (current + 300)) / 300).toNat + 1) := by omega
      rw [hq, range_map_shift]
      rw [ih ((stop - (current + 300)).toNat) (by omega) (current + 300) stop rfl h2]
    · rw [bucketStarts, if_neg h2]
      have hq : ((stop - current) / 300).toNat = 0 := by omega
      rw [hq, range_map_shift]
      simp

lemma window_buckets_count (now : Int) : ((now - align (now - 86400)) / 300).toNat + 1 = 289 := by
  unfold align; omega

lemma get_data_eq (db : List Event) (name : String) (now : Int) :
    get_data db name now = (List.range 289).map (fun i : ℕ =>
      (align (now - 86400) + 300 * (i : Int),
       buildBuckets (scanRows db name (now - 86400)) (align (now - 86400) + 300 * (i : Int)))) := by
  have h1 : align (now - 86400) ≤ now := by unfold align; omega
  simp only [get_data]
  rw [bucketStarts_closed ((now - align (now - 86400)).toNat) _ _ rfl h1]
  rw [window_buckets_count]
  rw [List.map_map]
  rfl

lemma buildBuckets_aux (rows : List (Int × Int)) : ∀ (f : Int → Int) (b : Int),
    rows.foldl (fun buckets tc => fun k => if k = align tc.1 then buckets k + tc.2 else buckets k) f b
      = f b + ((rows.filter (fun tc => decide (align tc.1 = b))).map Prod.snd).sum := by
  induction rows with
  | nil => intro f b; simp
  | cons tc rows ih =>
    intro f b
    rw [List.foldl_cons, ih, List.filter_cons]
    by_cases h : align tc.1 = b
    · subst h
      simp
      omega
    · have hd : decide (align tc.1 = b) = false := by simp [h]
      rw [hd]
      simp only [Bool.false_eq_true, if_false]
      rw [if_neg (fun hh => h hh.symm)]

lemma buildBuckets_eq (rows : List (Int × Int)) (b : Int) :
    buildBuckets rows b
      = ((rows.filter (fun tc => decide (align tc.1 = b))).map Prod.snd).sum := by
  unfold buildBuckets
  rw [buildBuckets_aux]
  simp

lemma sum_map_ite (L : List Int) (a x : Int) (hL : L.Nodup) :
    (L.map (fun b => if a = b then x else 0)).sum = if a ∈ L then x else 0 := by
  induction L with
  | nil => simp
  | cons c L ih =>
    rw [List.nodup_cons] at hL
    rw [List.map_cons, List.sum_cons, ih hL.2]
    by_cases h : a = c
    · subst h
      rw [if_pos rfl, if_pos (List.mem_cons_self a L), if_neg hL.1]
      omega
    · rw [if_neg h]
      by_cases h2 : a ∈ L
      · rw [if_pos h2, if_pos (List.mem_cons_of_mem c h2)]
        omega
      · rw [if_neg h2, if_neg (by simp [h, h2])]
        omega

lemma sum_over_buckets (L : List Int) (hL : L.Nodup) :
    ∀ rows : List (Int × Int),
    (L.map (fun b => ((rows.filter (fun tc => decide (align tc.1 = b))).map Prod.snd).sum)).sum
      = ((rows.filter (fun tc => decide (align tc.1 ∈ L))).map Prod.snd).sum := by
  intro rows
  induction rows with
  | nil => simp
  | cons tc rows ih =>
    have hsplit : (L.map (fun b =>
          (((tc :: rows).filter (fun tc => decide (align tc.1 = b))).map Prod.snd).sum)).sum
        = (L.map (fun b => (if align tc.1 = b then tc.2 else 0)
            + ((rows.filter (fun tc => decide (align tc.1 = b))).map Prod.snd).sum)).sum := by
      congr 1
      apply List.map_congr_left
      intro b _
      rw [List.filter_cons]
      by_cases h : align tc.1 = b
      · simp [h]
      · simp [h]
    rw [hsplit, List.sum_map_add, ih, sum_map_ite L (align tc.1) tc.2 hL, List.filter_cons]
    by_cases h : align tc.1 ∈ L
    · simp only [h, decide_True, if_pos rfl, List.map_cons, List.sum_cons, if_true]
    · have hd : decide (align tc.1 ∈ L) = false := by simp [h]
      rw [hd]
      simp only [Bool.false_eq_true, if_false]
      rw [if_neg h]
      omega

lemma align_mem (now t : Int) (h1 : now - 86400 ≤ t) (h2 : t ≤ now) :
    ∃ i : ℕ, i < 289 ∧ align t = align (now - 86400) + 300 * (i : Int) := by
  refine ⟨(t / 300 - (now - 86400) / 300).toNat, by omega, by unfold align; omega⟩

lemma align_mem_list (now t : Int) (h1 : now - 86400 ≤ t) (h2 : t ≤ now) :
    align t ∈ (List.range 289).map (fun i : ℕ => align (now - 86400) + 300 * (i : Int)) := by
  obtain ⟨i, hi, he⟩ := align_mem now t h1 h2
  exact List.mem_map.mpr ⟨i, List.mem_range.mpr hi, he.symm⟩

lemma bucket_list_nodup (a : Int) :
    ((List.range 289).map (fun i : ℕ => a + 300 * (i : Int))).Nodup := by
  refine (List.nodup_range 289).map ?_
  intro i j h
  simpa using h

lemma rows_filter_map (db : List Event) (name : String) (since : Int)
    (q : Int → Prop) [DecidablePred q] :
    ((scanRows db name since).filter (fun tc => decide (q tc.1))).map Prod.snd
      = ((db.filter (fun e =>
          decide (e.name = name ∧ since ≤ e.timestamp ∧ q e.timestamp))).map Event.count) := by
  unfold scanRows
  rw [List.filter_map, List.map_map, List.filter_filter]
  have hf : ∀ e : Event,
      (((fun tc : Int × Int => decide (q tc.1)) ∘ fun e : Event => (e.timestamp, e.count)) e
        && decide (e.name = name ∧ since ≤ e.timestamp))
      = decide (e.name = name ∧ since ≤ e.timestamp ∧ q e.timestamp) := by
    intro e
    by_cases hq : q e.timestamp <;> by_cases hn : e.name = name
      <;> by_cases ht : since ≤ e.timestamp <;> simp [hq, hn, ht]
  rw [List.filter_congr (fun e _ => hf e)]
  rfl

lemma scanRows_map_snd (db : List Event) (name : String) (since : Int) :
    (scanRows db name since).map Prod.snd
      = ((db.filter (fun e => decide (e.name = name ∧ since ≤ e.timestamp))).map Event.count) := by
  unfold scanRows
  rw [List.map_map]
  rfl

lemma mem_get_names (db : List Event) (s : String) :
    s ∈ get_names db ↔ s ∈ db.map Event.name := by
  unfold get_names
  rw [Finset.mem_sort]
  simp

lemma runAll_cons (db : List Event) (op : String × Int × Int) (ops : List (String × Int × Int)) :
    runAll db (op :: ops) = runAll (increment db op.1 op.2.1 op.2.2) ops := rfl

lemma mem_runAll_of_mem {e : Event} : ∀ (db : List Event) (ops : List (String × Int × Int)),
    e ∈ db → e ∈ runAll db ops := by
  intro db ops
  induction ops generalizing db with
  | nil => intro h; exact h
  | cons op ops ih =>
    intro h
    rw [runAll_cons]
    exact ih _ (by simp [increment, h])

lemma runAll_length : ∀ (ops : List (String × Int × Int)) (db : List Event),
    (runAll db ops).length = db.length + ops.length := by
  intro ops
  induction ops with
  | nil => intro db; simp [runAll]
  | cons op ops ih =>
    intro db
    rw [runAll_cons, ih]
    simp [increment]
    omega

lemma op_event_mem_runAll {op : String × Int × Int} :
    ∀ (ops : List (String × Int × Int)) (db : List Event), op ∈ ops →
    (⟨op.1, op.2.1, op.2.2⟩ : Event) ∈ runAll db ops := by
  intro ops
  induction ops with
  | nil => intro db h; cases h
  | cons op2 ops ih =>
    intro db h
    rw [runAll_cons]
    rcases List.mem_cons.mp h with h | h
    · subst h
      exact mem_runAll_of_mem _ _ (by simp [increment])
    · exact ih _ h

lemma get_data_mem_count (db : List Event) (name : String) (now b c : Int)
    (h : (b, c) ∈ get_data db name now) :
    (∃ i : ℕ, i < 289 ∧ b = align (now - 86400) + 300 * (i : Int)) ∧
    c = ((db.filter (fun e =>
          decide (e.name = name ∧ now - 86400 ≤ e.timestamp ∧ align e.timestamp = b))).map
        Event.count).sum := by
  rw [get_data_eq] at h
  obtain ⟨i, hi, he⟩ := List.mem_map.mp h
  rw [Prod.mk.injEq] at he
  obtain ⟨hb, hc⟩ := he
  refine ⟨⟨i, List.mem_range.mp hi, hb.symm⟩, ?_⟩
  rw [← hc, hb, buildBuckets_eq]
  exact congrArg List.sum (rows_filter_map db name (now - 86400) (fun t => align t = b))

lemma get_data_sum (db : List Event) (name : String) (now : Int) :
    ((get_data db name now).map Prod.snd).sum
      = ((db.filter (fun e => decide (e.name = name ∧ now - 86400 ≤ e.timestamp ∧
            align e.timestamp ∈ (List.range 289).map
              (fun i : ℕ => align (now - 86400) + 300 * (i : Int))))).map Event.count).sum := by
  rw [get_data_eq, List.map_map]
  have h1 : ((List.range 289).map (Prod.snd ∘ fun i : ℕ =>
        (align (now - 86400) + 300 * (i : Int),
         buildBuckets (scanRows db name (now - 86400)) (align (now - 86400) + 300 * (i : Int)))))
      = ((List.range 289).map (fun i : ℕ => align (now - 86400) + 300 * (i : Int))).map
          (fun b => buildBuckets (scanRows db name (now - 86400)) b) := by
    rw [List.map_map]
    rfl
  rw [h1]
  have h2 : (((List.range 289).map (fun i : ℕ => align (now - 86400) + 300 * (i : Int))).map
        (fun b => buildBuckets (scanRows db name (now - 86400)) b))
      = (((List.range 289).map (fun i : ℕ => align (now - 86400) + 300 * (i : Int))).map
          (fun b => (((scanRows db name (now - 86400)).filter
              (fun tc => decide (align tc.1 = b))).map Prod.snd).sum)) := by
    apply List.map_congr_left
    intro b _
    exact buildBuckets_eq _ b
  rw [h2]
  rw [sum_over_buckets _ (bucket_list_nodup (align (now - 86400)))]
  exact congrArg List.sum (rows_filter_map db name (now - 86400)
    (fun t => align t ∈ (List.range 289).map (fun i : ℕ => align (now - 86400) + 300 * (i : Int))))

lemma filter_window_congr (db : List Event) (name : String) (now b : Int)
    (hts : ∀ e ∈ db, e.name = name → e.timestamp ≤ now) :
    db.filter (fun e =>
        decide (e.name = name ∧ now - 86400 ≤ e.timestamp ∧ align e.timestamp = b))
      = bucketEvents db name now b := by
  unfold bucketEvents
  apply List.filter_congr
  intro e he
  by_cases hn : e.name = name
  · have h3 := hts e he hn
    by_cases h1 : now - 86400 ≤ e.timestamp <;> by_cases h2 : align e.timestamp = b
      <;> simp [hn, h1, h2, h3]
  · simp [hn]

/-- C1: for every metric name and every point of the series, the count the
emission loop of `get_data` reports for a bucket equals the sum of the
counts of the stored in-window events of that name whose timestamps fall in
that bucket — counts are added, never overwritten. -/
theorem bucket_count_additive (db : List Event) (name : String) (now b c : Int)
    (hts : ∀ e ∈ db, e.name = name → e.timestamp ≤ now)
    (hmem : (b, c) ∈ get_data db name now) :
    c = ((bucketEvents db name now b).map Event.count).sum := by
  have h := (get_data_mem_count db name now b c hmem).2
  rw [h, filter_window_congr db name now b hts]

theorem bucket_count_additive_witness :
    ((86400 : Int), (5 : Int)) ∈ get_data [⟨"x", 86400, 2⟩, ⟨"x", 86400, 3⟩] "x" 86400 ∧
    (5 : Int)
      = ((bucketEvents [⟨"x", 86400, 2⟩, ⟨"x", 86400, 3⟩] "x" 86400 86400).map
          Event.count).sum := by
  have hmem : ((86400 : Int), (5 : Int))
      ∈ get_data [⟨"x", 86400, 2⟩, ⟨"x", 86400, 3⟩] "x" 86400 := by
    rw [get_data_eq]
    refine List.mem_map.mpr ⟨288, List.mem_range.mpr (by norm_num), ?_⟩
    decide
  exact ⟨hmem, bucket_count_additive _ _ _ _ _ (by decide) hmem⟩

/-- C2: `get_data` always returns exactly 289 entries whose timestamps are
`align(now - 86400) + 300*i` for `i = 0,…,288` — strictly increasing by
exactly 300 with no gaps, regardless of the stored events — and a bucket
with no in-window events of the queried name reports count 0. -/
theorem series_shape (db : List Event) (name : String) (now : Int)
    (hts : ∀ e ∈ db, e.name = name → e.timestamp ≤ now) :
    (get_data db name now).length = 289 ∧
    (get_data db name now).map Prod.fst
      = (List.range 289).map (fun i : ℕ => align (now - 86400) + 300 * (i : Int)) ∧
    ∀ p ∈ get_data db name now, bucketEvents db name now p.1 = [] → p.2 = 0 := by
  have hfst : (get_data db name now).map Prod.fst
      = (List.range 289).map (fun i : ℕ => align (now - 86400) + 300 * (i : Int)) := by
    rw [get_data_eq, List.map_map]
    rfl
  refine ⟨?_, hfst, ?_⟩
  · have hlen := congrArg List.length hfst
    simpa using hlen
  · intro p hp hempty
    rcases p with ⟨b, c⟩
    have h := (get_data_mem_count db name now b c hp).2
    rw [filter_window_congr db name now b hts] at h
    rw [hempty] at h
    simpa using h

theorem series_shape_witness :
    (∀ e ∈ [(⟨"a", 100, 7⟩ : Event)], Event.name e = "a" → Event.timestamp e ≤ 86400) ∧
    (get_data [(⟨"a", 100, 7⟩ : Event)] "a" 86400).length = 289 :=
  ⟨by decide, (series_shape [⟨"a", 100, 7⟩] "a" 86400 (by decide)).1⟩

/-- C4: for a name with no stored events at all, `get_data` still returns
the full gap-filled series — 289 buckets, all with count 0 — rather than
failing. -/
theorem unknown_name_series (db : List Event) (name : String) (now : Int)
    (h : ∀ e ∈ db, e.name ≠ name) :
    (get_data db name now).length = 289 ∧ ∀ p ∈ get_data db name now, p.2 = 0 := by
  constructor
  · rw [get_data_eq]
    simp
  · intro p hp
    rcases p with ⟨b, c⟩
    have hc := (get_data_mem_count db name now b c hp).2
    have hnil : db.filter (fun e =>
        decide (e.name = name ∧ now - 86400 ≤ e.timestamp ∧ align e.timestamp = b)) = [] := by
      apply List.filter_eq_nil_iff.mpr
      intro e he
      simp [h e he]
    rw [hnil] at hc
    simpa using hc

theorem unknown_name_series_witness :
    (∀ e ∈ [(⟨"a", 100, 7⟩ : Event)], Event.name e ≠ "ghost") ∧
    ((get_data [(⟨"a", 100, 7⟩ : Event)] "ghost" 86400).length = 289 ∧
      ∀ p ∈ get_data [(⟨"a", 100, 7⟩ : Event)] "ghost" 86400, p.2 = 0) :=
  ⟨by decide, unknown_name_series [⟨"a", 100, 7⟩] "ghost" 86400 (by decide)⟩

/-- C10: when every stored event of the queried name lies in the trailing
24-hour window `[now - 86400, now]`, the sum of the 289 bucket counts
returned by `get_data` equals the sum of the counts of all stored events
of that name: aggregation neither loses nor double-counts an in-window
event. -/
theorem count_conservation (db : List Event) (name : String) (now : Int)
    (hw : ∀ e ∈ db, e.name = name → (now - 86400 ≤ e.timestamp ∧ e.timestamp ≤ now)) :
    ((get_data db name now).map Prod.snd).sum
      = ((db.filter (fun e => decide (e.name = name))).map Event.count).sum := by
  rw [get_data_sum]
  refine congrArg List.sum (congrArg (List.map Event.count) ?_)
  apply List.filter_congr
  intro e he
  by_cases hn : e.name = name
  · obtain ⟨h1, h2⟩ := hw e he hn
    have hmem := align_mem_list now e.timestamp h1 h2
    simp [hn, h1, hmem]
  · simp [hn]

theorem count_conservation_witness :
    (∀ e ∈ [(⟨"x", 86000, 3⟩ : Event), ⟨"y", 50000, 9⟩], Event.name e = "x" →
      (86400 - 86400 ≤ Event.timestamp e ∧ Event.timestamp e ≤ 86400)) ∧
    ((get_data [(⟨"x", 86000, 3⟩ : Event), ⟨"y", 50000, 9⟩] "x" 86400).map Prod.snd).sum
      = ((([(⟨"x", 86000, 3⟩ : Event), ⟨"y", 50000, 9⟩].filter
          (fun e => decide (Event.name e = "x"))).map Event.count).sum) :=
  ⟨by decide, count_conservation [⟨"x", 86000, 3⟩, ⟨"y", 50000, 9⟩] "x" 86400 (by decide)⟩

/-- C3: an in-window event of the queried name is assigned to the bucket
whose start is `floor(timestamp / 300) * 300`: that bucket start is present
in the series, and the timestamp of the event lies in `[bucket_start,
bucket_start + 300)` — the bucket width is exactly 300 seconds and
assignment floors the timestamp to the boundary. -/
theorem bucket_assignment (db : List Event) (name : String) (now : Int) (e : Event)
    (he : e ∈ db) (hn : e.name = name)
    (h1 : now - 86400 ≤ e.timestamp) (h2 : e.timestamp ≤ now) :
    e.timestamp / 300 * 300 ≤ e.timestamp ∧
    e.timestamp < e.timestamp / 300 * 300 + 300 ∧
    e ∈ bucketEvents db name now (e.timestamp / 300 * 300) ∧
    ∃ c : Int, (e.timestamp / 300 * 300, c) ∈ get_data db name now := by
  have halign : e.timestamp / 300 * 300 = align e.timestamp := rfl
  rw [halign]
  refine ⟨align_le e.timestamp, lt_align_add e.timestamp, ?_, ?_⟩
  · unfold bucketEvents
    rw [List.mem_filter]
    exact ⟨he, by simp [hn, h1, h2]⟩
  · have hmem := align_mem_list now e.timestamp h1 h2
    obtain ⟨i, hi, hei⟩ := List.mem_map.mp hmem
    refine ⟨buildBuckets (scanRows db name (now - 86400)) (align e.timestamp), ?_⟩
    rw [get_data_eq]
    refine List.mem_map.mpr ⟨i, hi, ?_⟩
    rw [hei]

theorem bucket_assignment_witness :
    ((⟨"x", 86000, 3⟩ : Event) ∈ [(⟨"x", 86000, 3⟩ : Event)] ∧
      Event.name (⟨"x", 86000, 3⟩ : Event) = "x" ∧
      86400 - 86400 ≤ (86000 : Int) ∧ (86000 : Int) ≤ 86400) ∧
    ((86000 : Int) / 300 * 300 ≤ 86000 ∧
      (86000 : Int) < 86000 / 300 * 300 + 300 ∧
      (⟨"x", 86000, 3⟩ : Event) ∈ bucketEvents [⟨"x", 86000, 3⟩] "x" 86400 (86000 / 300 * 300) ∧
      ∃ c : Int, ((86000 : Int) / 300 * 300, c) ∈ get_data [⟨"x", 86000, 3⟩] "x" 86400) :=
  ⟨⟨by decide, rfl, by decide, by decide⟩,
    bucket_assignment [⟨"x", 86000, 3⟩] "x" 86400 ⟨"x", 86000, 3⟩
      (by decide) rfl (by decide) (by decide)⟩

/-- C5 (claim as stated, refuted): after recording a permitted
negative-count event for "x" (`increment` performs no validation), an
`increment("x", 5)` followed immediately by `get_data("x")` at the same
time yields a series whose bucket containing "now" has count 0 and whose
total is 0 < 5: the round-trip property fails as universally stated. -/
theorem record_series_roundtrip_counterexample :
    ¬ ((∃ p ∈ get_data (increment (increment [] "x" 86400 (-5)) "x" 86400 5) "x" 86400,
          p.1 ≤ 86400 ∧ 86400 < p.1 + 300 ∧ p.2 ≠ 0) ∧
       5 ≤ ((get_data (increment (increment [] "x" 86400 (-5)) "x" 86400 5) "x" 86400).map
            Prod.snd).sum) := by
  rw [get_data_eq]
  set_option maxRecDepth 10000 in decide

lemma filtered_count_sum_nonneg (db : List Event) (name : String)
    (P : Event → Prop) [DecidablePred P]
    (hpos : ∀ e ∈ db, e.name = name → 0 ≤ e.count)
    (hP : ∀ e, P e → e.name = name) :
    0 ≤ ((db.filter (fun e => decide (P e))).map Event.count).sum := by
  apply List.sum_nonneg
  intro x hx
  obtain ⟨e, he, hcount⟩ := List.mem_map.mp hx
  obtain ⟨hedb, hpe⟩ := List.mem_filter.mp he
  rw [← hcount]
  exact hpos e hedb (hP e (of_decide_eq_true hpe))

/-- C5 (amended): provided every already-stored event for the name has a
nonnegative count, an `increment(name, c)` with `c ≥ 1` followed
immediately (same current time) by `get_data(name)` yields a series whose
bucket containing "now" has a nonzero count, and whose total over all
buckets is at least `c`. -/
theorem record_series_roundtrip (db : List Event) (name : String) (now c : Int)
    (hc : 1 ≤ c) (hpos : ∀ e ∈ db, e.name = name → 0 ≤ e.count) :
    (∃ p ∈ get_data (increment db name now c) name now,
        p.1 ≤ now ∧ now < p.1 + 300 ∧ p.2 ≠ 0) ∧
    c ≤ ((get_data (increment db name now c) name now).map Prod.snd).sum := by
  have hmemL := align_mem_list now now (by omega) (le_refl now)
  constructor
  · obtain ⟨i, hi, hei⟩ := List.mem_map.mp hmemL
    refine ⟨(align now,
        buildBuckets (scanRows (increment db name now c) name (now - 86400)) (align now)),
      ?_, align_le now, lt_align_add now, ?_⟩
    · rw [get_data_eq]
      refine List.mem_map.mpr ⟨i, hi, ?_⟩
      rw [hei]
    · have hcnt := (get_data_mem_count (increment db name now c) name now (align now)
        (buildBuckets (scanRows (increment db name now c) name (now - 86400)) (align now))
        (by rw [get_data_eq]; exact List.mem_map.mpr ⟨i, hi, by rw [hei]⟩)).2
      unfold increment at hcnt
      rw [List.filter_append, List.map_append, List.sum_append] at hcnt
      have hev : ([({ name := name, timestamp := now, count := c } : Event)].filter
          (fun e => decide (e.name = name ∧ now - 86400 ≤ e.timestamp ∧
            align e.timestamp = align now))) =
          [({ name := name, timestamp := now, count := c } : Event)] := by
        simp
      rw [hev] at hcnt
      have hnn : 0 ≤ ((db.filter (fun e => decide (e.name = name ∧ now - 86400 ≤ e.timestamp ∧
          align e.timestamp = align now))).map Event.count).sum :=
        filtered_count_sum_nonneg db name _ hpos (fun e hP => hP.1)
      simp only [List.map_cons, List.map_nil, List.sum_cons, List.sum_nil] at hcnt
      intro hzero
      have hzero2 : buildBuckets (scanRows (increment db name now c) name (now - 86400))
          (align now) = 0 := hzero
      unfold increment at hzero2
      rw [hzero2] at hcnt
      omega
  · rw [get_data_sum]
    unfold increment
    rw [List.filter_append, List.map_append, List.sum_append]
    have hev : ([({ name := name, timestamp := now, count := c } : Event)].filter
        (fun e => decide (e.name = name ∧ now - 86400 ≤ e.timestamp ∧
          align e.timestamp ∈ (List.range 289).map
            (fun i : ℕ => align (now - 86400) + 300 * (i : Int))))) =
        [({ name := name, timestamp := now, count := c } : Event)] := by
      simp
      obtain ⟨j, hj, hej⟩ := List.mem_map.mp hmemL
      exact ⟨j, List.mem_range.mp hj, hej⟩
    rw [hev]
    have hnn : 0 ≤ ((db.filter (fun e => decide (e.name = name ∧ now - 86400 ≤ e.timestamp ∧
        align e.timestamp ∈ (List.range 289).map
          (fun i : ℕ => align (now - 86400) + 300 * (i : Int))))).map Event.count).sum :=
      filtered_count_sum_nonneg db name _ hpos (fun e hP => hP.1)
    simp only [List.map_cons, List.map_nil, List.sum_cons, List.sum_nil]
    omega

theorem record_series_roundtrip_witness :
    ((1 : Int) ≤ 5 ∧ ∀ e ∈ ([] : List Event), Event.name e = "x" → 0 ≤ Event.count e) ∧
    ((∃ p ∈ get_data (increment [] "x" 86400 5) "x" 86400,
        p.1 ≤ 86400 ∧ 86400 < p.1 + 300 ∧ p.2 ≠ 0) ∧
      (5 : Int) ≤ ((get_data (increment [] "x" 86400 5) "x" 86400).map Prod.snd).sum) :=
  ⟨⟨by norm_num, by simp⟩, record_series_roundtrip [] "x" 86400 5 (by norm_num) (by simp)⟩

/-- C6: `get_names` returns exactly the set of distinct `name` values ever
appended to the store — membership coincides with having a stored event of
that name — lexicographically sorted (strictly, hence duplicate-free); it
is a pure function of the stored rows, so two calls with no intervening
writes return identical lists. -/
theorem distinct_names_sorted (db : List Event) :
    List.Sorted (fun a b => a < b) (get_names db) ∧
    (get_names db).Nodup ∧
    ∀ s : String, s ∈ get_names db ↔ ∃ e ∈ db, e.name = s := by
  refine ⟨?_, ?_, ?_⟩
  · unfold get_names
    exact Finset.sort_sorted_lt _
  · unfold get_names
    exact Finset.sort_nodup _ _
  · intro s
    rw [mem_get_names]
    exact List.mem_map

theorem distinct_names_sorted_witness :
    List.Sorted (fun a b => a < b)
      (get_names [(⟨"b", 10, 1⟩ : Event), ⟨"a", 20, 1⟩, ⟨"a", 30, 2⟩]) ∧
    (get_names [(⟨"b", 10, 1⟩ : Event), ⟨"a", 20, 1⟩, ⟨"a", 30, 2⟩]).Nodup ∧
    ∀ s : String, s ∈ get_names [(⟨"b", 10, 1⟩ : Event), ⟨"a", 20, 1⟩, ⟨"a", 30, 2⟩]
      ↔ ∃ e ∈ [(⟨"b", 10, 1⟩ : Event), ⟨"a", 20, 1⟩, ⟨"a", 30, 2⟩], e.name = s :=
  distinct_names_sorted [⟨"b", 10, 1⟩, ⟨"a", 20, 1⟩, ⟨"a", 30, 2⟩]

/-- C7: `increment` validates nothing about `count`: for every integer,
zero and negative values included, the call succeeds, appends exactly one
row holding that exact count with the current timestamp, and the name
becomes visible to `get_names`. -/
theorem permissive_count (db : List Event) (name : String) (now count : Int) :
    (increment db name now count).getLast? = some ⟨name, now, count⟩ ∧
    (increment db name now count).length = db.length + 1 ∧
    name ∈ get_names (increment db name now count) := by
  refine ⟨?_, ?_, ?_⟩
  · unfold increment
    exact List.getLast?_concat _
  · unfold increment
    simp
  · rw [mem_get_names]
    unfold increment
    simp

theorem permissive_count_witness :
    (increment [] "x" 86400 (-7)).getLast? = some ⟨"x", 86400, -7⟩ ∧
    (increment [] "x" 86400 (-7)).length = List.length ([] : List Event) + 1 ∧
    "x" ∈ get_names (increment [] "x" 86400 (-7)) :=
  permissive_count [] "x" 86400 (-7)

/-- C8 (divergence witness): in `increment` the mutual-exclusion lock and
the sqlite connection are NOT released on the failure path — the source
has no `try`/`finally`, so when the INSERT/commit raises a storage error
the exception propagates with the lock still held and the connection still
open, while on the success path both are released. -/
theorem lock_not_released_on_failure :
    (increment_run [] "x" 0 1 false).2 = some "StorageError" ∧
    (increment_run [] "x" 0 1 false).1.lockHeld = true ∧
    (increment_run [] "x" 0 1 false).1.connOpen = true ∧
    (increment_run [] "x" 0 1 false).1.db = [] ∧
    (increment_run [] "x" 0 1 true).1.lockHeld = false ∧
    (increment_run [] "x" 0 1 true).1.connOpen = false :=
  ⟨rfl, rfl, rfl, rfl, rfl, rfl⟩

/-- C9: writes are serialized by the lock, so a concurrent execution of N
`increment` calls is the sequential execution of some arrival order; for
every order, every store and every list of N calls, exactly N events are
appended (none lost) and `get_names` afterwards contains every recorded
name. -/
theorem serialized_writes (db : List Event) (ops : List (String × Int × Int)) :
    (runAll db ops).length = db.length + ops.length ∧
    ∀ op ∈ ops, op.1 ∈ get_names (runAll db ops) := by
  refine ⟨runAll_length ops db, ?_⟩
  intro op hop
  rw [mem_get_names]
  exact List.mem_map.mpr ⟨⟨op.1, op.2.1, op.2.2⟩, op_event_mem_runAll ops db hop, rfl⟩

theorem serialized_writes_witness :
    (runAll [] [("a", 10, 1), ("b", 20, 1), ("c", 30, 2)]).length
      = List.length ([] : List Event) + 3 ∧
    ∀ op ∈ [(("a", 10, 1) : String × Int × Int), ("b", 20, 1), ("c", 30, 2)],
      op.1 ∈ get_names (runAll [] [("a", 10, 1), ("b", 20, 1), ("c", 30, 2)]) :=
  serialized_writes [] [("a", 10, 1), ("b", 20, 1), ("c", 30, 2)]
